import Mathlib

/-!
Verification of the rusdis RESP server (src/resp.rs, src/commands.rs,
src/store.rs, src/main.rs) against its natural-language specification.

The Rust code is shallowly embedded:
* a byte stream (`TcpStream` or `&[u8]` iterator) is a `List Nat` of bytes;
  reading past the end of the list models the orderly end of the stream
  (`read` returning 0 / `read_exact` failing with an I/O error);
* a Rust `String` is a `List Char` of unicode scalar values; the byte view
  used on the wire is its UTF-8 encoding, and `String::from_utf8` is the
  validating decoder `utf8Decode`;
* machine integers are `Nat` / `Int` with explicit bounds where the source
  uses `i64` (`parse::<i64>` rejects values outside `[-2^63, 2^63-1]`);
* the recursive parser carries a fuel parameter so that it is a total,
  executable function; `ParseError.outOfFuel` is an artifact of the
  embedding that is never produced when the fuel exceeds the recursion
  depth (the wrapper `parseTop` always supplies enough);
* the per-connection dispatch loop of `main.rs` is a fold over the list of
  byte chunks successive `stream.read` calls deliver.
-/

namespace Rusdis

/-- List of unicode scalar values of a string literal. -/
def strData (s : String) : List Char := s.data

/-- UTF-8 byte sequence of a unicode scalar value given as a `Nat`. -/
def utf8EncodeNat (n : Nat) : List Nat :=
  if n < 128 then [n]
  else if n < 2048 then [192 + n / 64, 128 + n % 64]
  else if n < 65536 then [224 + n / 4096, 128 + n / 64 % 64, 128 + n % 64]
  else [240 + n / 262144, 128 + n / 4096 % 64, 128 + n / 64 % 64, 128 + n % 64]

/-- UTF-8 encoding of one unicode scalar value (one Rust `char`). -/
def utf8EncodeChar (c : Char) : List Nat := utf8EncodeNat c.toNat

/-- UTF-8 encoding of a Rust `String`, i.e. the byte slice `str.as_bytes()`;
`str.len()` in the source is the length of this list. -/
def utf8Encode (s : List Char) : List Nat := (s.map utf8EncodeChar).flatten

mutual

/-- Validating UTF-8 decoder, modelling `String::from_utf8`: rejects stray
or missing continuation bytes, overlong forms, surrogates and values above
U+10FFFF; the lead byte picks the sequence length handled by the helpers
below. -/
def utf8Decode : List Nat → Option (List Char)
  | [] => some []
  | b0 :: rest =>
    if b0 < 128 then
      (utf8Decode rest).map (fun cs => Char.ofNat b0 :: cs)
    else if b0 < 194 then none
    else if b0 < 224 then utf8Decode2 b0 rest
    else if b0 < 240 then utf8Decode3 b0 rest
    else if b0 < 245 then utf8Decode4 b0 rest
    else none

/-- Continuation of a two-byte UTF-8 sequence. -/
def utf8Decode2 : Nat → List Nat → Option (List Char)
  | b0, b1 :: rest1 =>
    if 128 ≤ b1 ∧ b1 < 192 then
      (utf8Decode rest1).map (fun cs => Char.ofNat ((b0 - 192) * 64 + (b1 - 128)) :: cs)
    else none
  | _, [] => none

/-- Continuation of a three-byte UTF-8 sequence. -/
def utf8Decode3 : Nat → List Nat → Option (List Char)
  | b0, b1 :: b2 :: rest2 =>
    if (128 ≤ b1 ∧ b1 < 192) ∧ (128 ≤ b2 ∧ b2 < 192) then
      if 2048 ≤ (b0 - 224) * 4096 + (b1 - 128) * 64 + (b2 - 128) ∧
          ¬ (55296 ≤ (b0 - 224) * 4096 + (b1 - 128) * 64 + (b2 - 128) ∧
             (b0 - 224) * 4096 + (b1 - 128) * 64 + (b2 - 128) < 57344) then
        (utf8Decode rest2).map
          (fun cs => Char.ofNat ((b0 - 224) * 4096 + (b1 - 128) * 64 + (b2 - 128)) :: cs)
      else none
    else none
  | _, [] => none
  | _, [_] => none

/-- Continuation of a four-byte UTF-8 sequence. -/
def utf8Decode4 : Nat → List Nat → Option (List Char)
  | b0, b1 :: b2 :: b3 :: rest3 =>
    if (128 ≤ b1 ∧ b1 < 192) ∧ (128 ≤ b2 ∧ b2 < 192) ∧ (128 ≤ b3 ∧ b3 < 192) then
      if 65536 ≤ (b0 - 240) * 262144 + (b1 - 128) * 4096 + (b2 - 128) * 64 + (b3 - 128) ∧
          (b0 - 240) * 262144 + (b1 - 128) * 4096 + (b2 - 128) * 64 + (b3 - 128) < 1114112 then
        (utf8Decode rest3).map
          (fun cs =>
            Char.ofNat
              ((b0 - 240) * 262144 + (b1 - 128) * 4096 + (b2 - 128) * 64 + (b3 - 128)) :: cs)
      else none
    else none
  | _, [] => none
  | _, [_] => none
  | _, [_, _] => none

end

/-- Decimal digit character for a value below 10. -/
def digitChar (n : Nat) : Char := Char.ofNat (48 + n)

/-- Decimal digits of a natural number, most significant first; the fuel is
only there to make the recursion structural and any fuel of at least `n + 1`
gives the same result. -/
def natDigitsCore : Nat → Nat → List Char → List Char
  | 0, _, acc => acc
  | fuel + 1, n, acc =>
    if n < 10 then digitChar n :: acc
    else natDigitsCore fuel (n / 10) (digitChar (n % 10) :: acc)

/-- Decimal rendering of a `usize` value, as `format!` produces it. -/
def natToString (n : Nat) : List Char := natDigitsCore (n + 1) n []

/-- Decimal rendering of an `i64` value, as `format!` produces it. -/
def intToString (i : Int) : List Char :=
  if i < 0 then Char.ofNat 45 :: natToString i.natAbs else natToString i.toNat

/-- ASCII decimal digit test. -/
def isDigitChar (c : Char) : Bool := decide (48 ≤ c.toNat ∧ c.toNat ≤ 57)

/-- Value of a non-empty all-digit string, `none` otherwise. -/
def digitsVal (s : List Char) : Option Nat :=
  if !s.isEmpty && s.all isDigitChar then
    some (s.foldl (fun a c => a * 10 + (c.toNat - 48)) 0)
  else none

/-- Model of Rust `str::parse::<i64>`: an optional sign followed by at least
one digit, with the value required to fit in an `i64`. -/
def parseI64 (s : List Char) : Option Int :=
  match s with
  | [] => none
  | c :: rest =>
    if c = Char.ofNat 43 then
      (digitsVal rest).bind
        (fun n => if n ≤ 9223372036854775807 then some (Int.ofNat n) else none)
    else if c = Char.ofNat 45 then
      (digitsVal rest).bind
        (fun n => if n ≤ 9223372036854775808 then some (-(Int.ofNat n)) else none)
    else
      (digitsVal s).bind
        (fun n => if n ≤ 9223372036854775807 then some (Int.ofNat n) else none)

/-- The RESP wire value model, `resp::Data` in the source. -/
inductive Data where
  | string (s : List Char)
  | error (s : List Char)
  | integer (i : Int)
  | bulkString (s : List Char)
  | array (arr : List Data)
  | nullBulkString
  | nullArray

mutual

/-- Serializer `resp::ser`. -/
def ser : Data → List Nat
  | .string s => 43 :: (utf8Encode s ++ [13, 10])
  | .error s => 45 :: (utf8Encode s ++ [13, 10])
  | .integer i => 58 :: (utf8Encode (intToString i) ++ [13, 10])
  | .bulkString s =>
      36 :: (utf8Encode (natToString (utf8Encode s).length) ++ [13, 10] ++
        (utf8Encode s ++ [13, 10]))
  | .array arr => 42 :: (utf8Encode (natToString arr.length) ++ [13, 10] ++ serList arr)
  | .nullBulkString => [36, 45, 49, 13, 10]
  | .nullArray => [42, 45, 49, 13, 10]

/-- Serialization of the elements of an array, in order. -/
def serList : List Data → List Nat
  | [] => []
  | d :: rest => ser d ++ serList rest

end

/-- Wrapper `resp::ser_string`. -/
def ser_string (s : List Char) : List Nat := ser (.string s)

/-- Wrapper `resp::ser_error`. -/
def ser_error (s : List Char) : List Nat := ser (.error s)

/-- Wrapper `resp::ser_int`. -/
def ser_int (i : Int) : List Nat := ser (.integer i)

/-- Wrapper `resp::ser_bulk_string`. -/
def ser_bulk_string (s : List Char) : List Nat := ser (.bulkString s)

/-- Wrapper `resp::ser_null_bulk_string`. -/
def ser_null_bulk_string : List Nat := ser .nullBulkString

/-- The decode-error type `resp::ParseError`. `ioErr` stands for `Io` (the
only I/O failure in the list model is `read_exact` hitting the end of the
stream), `intErr` for `Int`, `utf8Err` for `Utf8`. `outOfFuel` is the
embedding artifact explained in the header. -/
inductive ParseError where
  | ioErr
  | intErr
  | utf8Err
  | negativeInt
  | missingCRLF
  | outOfFuel
deriving DecidableEq

/-- Byte-level body of `read_until_crlf`: consume bytes up to and including
the first CRLF pair (returning the bytes before it), or the whole stream if
no CRLF occurs before the end. -/
def readLineBytes : List Nat → List Nat × List Nat
  | [] => ([], [])
  | 13 :: 10 :: rest => ([], rest)
  | b :: rest =>
    let p := readLineBytes rest
    (b :: p.1, p.2)

/-- Model of `read_exact` on the list stream: `n` bytes or an I/O error. -/
def read_exact (n : Nat) (s : List Nat) : Except ParseError (List Nat × List Nat) :=
  if n ≤ s.length then .ok (s.take n, s.drop n) else .error .ioErr

/-- Reader extension `read_crlf`: two exact bytes that must be CR LF. -/
def read_crlf (s : List Nat) : Except ParseError (List Nat) :=
  match s with
  | 13 :: 10 :: rest => .ok rest
  | _ :: _ :: _ => .error .missingCRLF
  | _ => .error .ioErr

/-- Reader extension `read_until_crlf`: the line bytes re-validated as a
`String` through `String::from_utf8`. -/
def read_until_crlf (s : List Nat) : Except ParseError (List Char × List Nat) :=
  match utf8Decode (readLineBytes s).1 with
  | some cs => .ok (cs, (readLineBytes s).2)
  | none => .error .utf8Err

/-- Reader extension `read_i64`: a line parsed as an `i64`. -/
def read_i64 (s : List Nat) : Except ParseError (Int × List Nat) :=
  match read_until_crlf s with
  | .error e => .error e
  | .ok (cs, rest) =>
    match parseI64 cs with
    | some i => .ok (i, rest)
    | none => .error .intErr

/-- Parser `resp::parse_string` (after the `+` lead byte). -/
def parse_string (s : List Nat) : Except ParseError (Data × List Nat) :=
  (read_until_crlf s).map (fun p => (.string p.1, p.2))

/-- Parser `resp::parse_error` (after the `-` lead byte). -/
def parse_error (s : List Nat) : Except ParseError (Data × List Nat) :=
  (read_until_crlf s).map (fun p => (.error p.1, p.2))

/-- Parser `resp::parse_integer` (after the `:` lead byte). -/
def parse_integer (s : List Nat) : Except ParseError (Data × List Nat) :=
  match read_until_crlf s with
  | .error e => .error e
  | .ok (cs, rest) =>
    match parseI64 cs with
    | some i => .ok (.integer i, rest)
    | none => .error .intErr

/-- Parser `resp::parse_bulk_string` (after the `$` lead byte). -/
def parse_bulk_string (s : List Nat) : Except ParseError (Data × List Nat) :=
  match read_i64 s with
  | .error e => .error e
  | .ok (length, s1) =>
    if length = -1 then .ok (.nullBulkString, s1)
    else if length < 0 then .error .negativeInt
    else
      match read_exact length.toNat s1 with
      | .error e => .error e
      | .ok (payload, s2) =>
        match read_crlf s2 with
        | .error e => .error e
        | .ok s3 =>
          match utf8Decode payload with
          | some cs => .ok (.bulkString cs, s3)
          | none => .error .utf8Err

/-- Rust `str::split(' ')`: the (possibly empty) slices between spaces. -/
def splitSpace : List Char → List (List Char)
  | [] => [[]]
  | c :: rest =>
    if c = Char.ofNat 32 then [] :: splitSpace rest
    else
      match splitSpace rest with
      | t :: ts => (c :: t) :: ts
      | [] => [[c]]

/-- Token coercion of the inline parser: a token that parses as an `i64`
becomes an Integer, anything else a String. -/
def tokenData (t : List Char) : Data :=
  match parseI64 t with
  | some i => .integer i
  | none => .string t

/-- Parser `resp::parse_pipeline`: the consumed lead byte plus the rest of
the line as free text (an error from `read_until_crlf` is silently dropped
by `string.extend(..)`, leaving just the lead byte), split on single spaces
with empty slices removed and each token coerced by `tokenData`. -/
def parse_pipeline (first : Nat) (s : List Nat) : Except ParseError (Data × List Nat) :=
  let tail :=
    match utf8Decode (readLineBytes s).1 with
    | some cs => cs
    | none => []
  .ok
    (.array
      (((splitSpace (Char.ofNat first :: tail)).filter (fun t => !t.isEmpty)).map tokenData),
      (readLineBytes s).2)

mutual

/-- Parser `resp::parse`: one lead byte dispatched on its value; a clean end
of input yields `none`; an unrecognized lead byte yields the inline parse
when `allow_pipeline` is set and `none` otherwise. -/
def parse (fuel : Nat) (s : List Nat) (allow_pipeline : Bool) :
    Except ParseError (Option Data × List Nat) :=
  match fuel with
  | 0 => .error .outOfFuel
  | f + 1 =>
    match s with
    | [] => .ok (none, [])
    | b :: rest =>
      if b = 43 then (parse_string rest).map (fun p => (some p.1, p.2))
      else if b = 45 then (parse_error rest).map (fun p => (some p.1, p.2))
      else if b = 58 then (parse_integer rest).map (fun p => (some p.1, p.2))
      else if b = 42 then (parse_array f rest).map (fun p => (some p.1, p.2))
      else if b = 36 then (parse_bulk_string rest).map (fun p => (some p.1, p.2))
      else if allow_pipeline then (parse_pipeline b rest).map (fun p => (some p.1, p.2))
      else .ok (none, rest)

/-- Parser `resp::parse_array` (after the `*` lead byte): length line, the
`-1` null sentinel, rejection of other negative lengths, then the element
loop. -/
def parse_array (fuel : Nat) (s : List Nat) : Except ParseError (Data × List Nat) :=
  match fuel with
  | 0 => .error .outOfFuel
  | f + 1 =>
    match read_i64 s with
    | .error e => .error e
    | .ok (length, s1) =>
      if length = -1 then .ok (.nullArray, s1)
      else if length < 0 then .error .negativeInt
      else (parse_array_elems f length.toNat s1).map (fun p => (.array p.1, p.2))

/-- The `while results.len() < length` loop of `parse_array`: nested values
are parsed with `allow_pipeline = false`; a `none` sub-parse breaks the loop
early, returning the elements collected so far. -/
def parse_array_elems (fuel : Nat) (n : Nat) (s : List Nat) :
    Except ParseError (List Data × List Nat) :=
  match n with
  | 0 => .ok ([], s)
  | m + 1 =>
    match fuel with
    | 0 => .error .outOfFuel
    | f + 1 =>
      match parse f s false with
      | .error e => .error e
      | .ok (none, r) => .ok ([], r)
      | .ok (some item, r) =>
        (parse_array_elems f m r).map (fun p => (item :: p.1, p.2))

end

/-- Top-level parse of a byte source with ample fuel: twice the stream
length plus two always exceeds the recursion depth, since every nesting
level consumes at least one byte. -/
def parseTop (s : List Nat) (allow_pipeline : Bool) :
    Except ParseError (Option Data × List Nat) :=
  parse (2 * s.length + 2) s allow_pipeline

mutual

/-- Structurally well-formed wire values: SimpleString and Error text free
of CR and LF (the parser would stop at an embedded CRLF), and the `i64`
bounds that the Rust types impose (`Integer` holds an `i64`; `str::len` and
`Vec::len` never exceed `isize::MAX` because allocations are bounded by it,
and larger declared lengths would not re-parse as `i64`). -/
def wellFormed : Data → Bool
  | .string s => decide (Char.ofNat 13 ∉ s) && decide (Char.ofNat 10 ∉ s)
  | .error s => decide (Char.ofNat 13 ∉ s) && decide (Char.ofNat 10 ∉ s)
  | .integer i => decide (-9223372036854775808 ≤ i ∧ i ≤ 9223372036854775807)
  | .bulkString s => decide ((utf8Encode s).length ≤ 9223372036854775807)
  | .array arr => decide (arr.length ≤ 9223372036854775807) && wellFormedList arr
  | .nullBulkString => true
  | .nullArray => true

/-- All elements of an array well-formed. -/
def wellFormedList : List Data → Bool
  | [] => true
  | d :: rest => wellFormed d && wellFormedList rest

end

mutual

/-- Fuel sufficient for `parse` to consume the serialization of a value. -/
def cost : Data → Nat
  | .array arr => costList arr + 2
  | .nullArray => 2
  | _ => 1

/-- Fuel sufficient for `parse_array_elems` over serialized elements. -/
def costList : List Data → Nat
  | [] => 0
  | d :: rest => cost d + costList rest + 1

end

/-- The key-value store contents: the `HashMap<String, String>` behind
`HashMapStore`, modelled as an association list with at most one binding
per key (`storeSet` replaces in place). -/
abbrev StoreT := List (List Char × List Char)

/-- Lookup, `HashMapStore::get`. -/
def storeGet : StoreT → List Char → Option (List Char)
  | [], _ => none
  | (k, v) :: rest, key => if k = key then some v else storeGet rest key

/-- Insert-or-replace, `HashMapStore::set` (`HashMap::insert`). -/
def storeSet : StoreT → List Char → List Char → StoreT
  | [], key, value => [(key, value)]
  | (k, v) :: rest, key, value =>
    if k = key then (key, value) :: rest else (k, v) :: storeSet rest key value

/-- Key-presence test, `HashMap::contains_key`. -/
def storeContains (m : StoreT) (key : List Char) : Bool :=
  (storeGet m key).isSome

/-- Removal of the binding of a key, `HashMap::remove`. -/
def storeRemove : StoreT → List Char → StoreT
  | [], _ => []
  | (k, v) :: rest, key => if k = key then rest else (k, v) :: storeRemove rest key

/-- Deletion loop `HashMapStore::del`: each listed key contributes 1 when
present (and is removed) and 0 when absent; the contributions are summed. -/
def storeDel : StoreT → List (List Char) → StoreT × Int
  | m, [] => (m, 0)
  | m, k :: rest =>
    if storeContains m k then
      let p := storeDel (storeRemove m k) rest
      (p.1, p.2 + 1)
    else storeDel m rest

namespace commands

/-- Argument extraction `commands::get_arg`: the element at `index` when it
is a SimpleString or a BulkString, `none` otherwise. -/
def get_arg (args : List Data) (index : Nat) : Option (List Char) :=
  match args[index]? with
  | some (.string s) => some s
  | some (.bulkString s) => some s
  | _ => none

/-- Command `commands::get`. -/
def get (store : StoreT) (args : List Data) : List Nat :=
  match get_arg args 1 with
  | some key =>
    match storeGet store key with
    | some data => ser_bulk_string data
    | none => ser_null_bulk_string
  | none => ser (.error (strData ("No key provided")))

/-- Command `commands::set`; returns the updated store with the reply. -/
def set (store : StoreT) (args : List Data) : StoreT × List Nat :=
  match get_arg args 1 with
  | some key =>
    match get_arg args 2 with
    | some value => (storeSet store key value, ser_string (strData ("OK")))
    | none => (store, ser_error (strData ("No value provided")))
  | none => (store, ser_error (strData ("No key provided")))

/-- The fold in `commands::del` collecting the string-kind elements of
`args[1..]` as the keys to delete. -/
def extract_keys (args : List Data) : List (List Char) :=
  args.foldl
    (fun acc curr =>
      match curr with
      | .string s => acc ++ [s]
      | .bulkString s => acc ++ [s]
      | _ => acc)
    []

/-- Command `commands::del`; `args.drop 1` models `args[1..]` (the
dispatcher only calls it when index 0 exists, so the slice never panics). -/
def del (store : StoreT) (args : List Data) : StoreT × List Nat :=
  let p := storeDel store (extract_keys (args.drop 1))
  (p.1, ser_int p.2)

/-- Command `commands::ping`. -/
def ping : List Nat := ser_string (strData ("PONG"))

end commands

/-- The command dispatch of `execute_commands` once a command name has been
extracted: exact, case-sensitive match against PING, SET, GET, DEL, with
Error "Unknown command" otherwise. -/
def run_command (store : StoreT) (cmd : List Char) (arr : List Data) : StoreT × List Nat :=
  if cmd = strData ("PING") then (store, commands.ping)
  else if cmd = strData ("SET") then commands.set store arr
  else if cmd = strData ("GET") then (store, commands.get store arr)
  else if cmd = strData ("DEL") then commands.del store arr
  else (store, ser_error (strData ("Unknown command")))

/-- The `else` loop of `main::execute_commands`: when the array has no
string-kind first element, recurse into each nested Array element and
concatenate the replies. The dispatch on a nested array's command name is
inlined here (it is definitionally `execute_commands`, stated as
`execute_items_cons_array` below) to keep the recursion structural. -/
def execute_items : StoreT → List Data → StoreT × List Nat
  | store, [] => (store, [])
  | store, .array inner :: rest =>
    let p :=
      match commands.get_arg inner 0 with
      | some cmd => run_command store cmd inner
      | none => execute_items store inner
    let q := execute_items p.1 rest
    (q.1, p.2 ++ q.2)
  | store, _ :: rest => execute_items store rest

/-- Dispatcher `main::execute_commands` on one parsed request array. -/
def execute_commands (store : StoreT) (arr : List Data) : StoreT × List Nat :=
  match commands.get_arg arr 0 with
  | some cmd => run_command store cmd arr
  | none => execute_items store arr

/-- One iteration of the per-connection loop in `main`: parse the chunk the
last `stream.read` returned (with `allow_pipeline = true`) and, only when
this yields `Ok(Some(Array(..)))`, execute it and buffer the replies;
every other outcome (decode error, `Ok(None)`, a non-array value) is
silently ignored and the loop continues. -/
def connStep (store : StoreT) (chunk : List Nat) : StoreT × List Nat :=
  match parseTop chunk true with
  | .ok (some (.array arr), _) => execute_commands store arr
  | _ => (store, [])

/-- The per-connection loop of `main` over the successive byte chunks read
from the socket, accumulating the reply bytes written back in order; the
end of the chunk list is the orderly close of the connection. -/
def runConn : StoreT → List (List Nat) → StoreT × List Nat
  | store, [] => (store, [])
  | store, c :: rest =>
    let p := connStep store c
    let q := runConn p.1 rest
    (q.1, p.2 ++ q.2)

/-- UTF-8 bytes of a string literal, for concrete wire inputs. -/
def bytesOf (s : String) : List Nat := utf8Encode s.data

/-- Membership of `.string`/`.bulkString` kinds, used to state the DEL
key-extraction contract. -/
def keyOf : Data → Option (List Char)
  | .string s => some s
  | .bulkString s => some s
  | _ => none

theorem char_valid_nat (c : Char) : c.toNat < 55296 ∨ (57343 < c.toNat ∧ c.toNat < 1114112) :=
  c.valid

theorem toNat_ofNat_small {n : Nat} (h : n < 55296) : (Char.ofNat n).toNat = n := by
  have hv : n.isValidChar := Or.inl h
  simp [Char.ofNat, hv, Char.ofNatAux, Char.toNat, UInt32.toNat, BitVec.toNat_ofNatLt]

theorem toNat_ofNat_valid {n : Nat} (h : n < 55296 ∨ (57343 < n ∧ n < 1114112)) :
    (Char.ofNat n).toNat = n := by
  rcases h with h | h
  · exact toNat_ofNat_small h
  · have hv : n.isValidChar := Or.inr (by omega)
    simp [Char.ofNat, hv, Char.ofNatAux, Char.toNat, UInt32.toNat, BitVec.toNat_ofNatLt]

theorem char_eq_of_toNat_eq {c d : Char} (h : c.toNat = d.toNat) : c = d := by
  have hc := Char.ofNat_toNat c
  have hd := Char.ofNat_toNat d
  rw [← hc, ← hd, h]

theorem mem_utf8EncodeNat_small {n b : Nat}
    (hb : b ∈ utf8EncodeNat n) (hlt : b < 128) : b = n := by
  by_cases h1 : n < 128
  · rw [utf8EncodeNat, if_pos h1] at hb
    simp only [List.mem_singleton] at hb
    omega
  · by_cases h2 : n < 2048
    · rw [utf8EncodeNat, if_neg h1, if_pos h2] at hb
      simp only [List.mem_cons, List.mem_singleton, List.not_mem_nil, or_false] at hb
      rcases hb with hb | hb <;> omega
    · by_cases h3 : n < 65536
      · rw [utf8EncodeNat, if_neg h1, if_neg h2, if_pos h3] at hb
        simp only [List.mem_cons, List.mem_singleton, List.not_mem_nil, or_false] at hb
        rcases hb with hb | hb | hb <;> omega
      · rw [utf8EncodeNat, if_neg h1, if_neg h2, if_neg h3] at hb
        simp only [List.mem_cons, List.mem_singleton, List.not_mem_nil, or_false] at hb
        rcases hb with hb | hb | hb | hb <;> omega

theorem not_mem_utf8Encode_of_small {s : List Char} {b : Nat} (hb : b < 128)
    (h : Char.ofNat b ∉ s) : b ∉ utf8Encode s := by
  intro hmem
  simp only [utf8Encode, List.mem_flatten, List.mem_map] at hmem
  obtain ⟨l, ⟨c, hc, rfl⟩, hbl⟩ := hmem
  have := mem_utf8EncodeNat_small (n := c.toNat) (by simpa [utf8EncodeChar] using hbl) hb
  apply h
  have : Char.ofNat b = Char.ofNat c.toNat := by rw [this]
  rw [this, Char.ofNat_toNat]
  exact hc

theorem utf8Decode_encodeNat {n : Nat}
    (hv : n < 55296 ∨ (57343 < n ∧ n < 1114112)) (rest : List Nat) :
    utf8Decode (utf8EncodeNat n ++ rest) =
      (utf8Decode rest).map (fun cs => Char.ofNat n :: cs) := by
  by_cases h1 : n < 128
  · simp only [utf8EncodeNat, if_pos h1, List.cons_append, List.nil_append]
    rw [utf8Decode.eq_def]
    dsimp only
    rw [if_pos h1]
  · by_cases h2 : n < 2048
    · simp only [utf8EncodeNat, if_neg h1, if_pos h2, List.cons_append, List.nil_append]
      rw [utf8Decode.eq_def]
      dsimp only
      rw [if_neg (by omega), if_neg (by omega), if_pos (by omega)]
      rw [utf8Decode2.eq_def]
      dsimp only
      rw [if_pos (by omega)]
      have harg : (192 + n / 64 - 192) * 64 + (128 + n % 64 - 128) = n := by omega
      rw [harg]
    · by_cases h3 : n < 65536
      · simp only [utf8EncodeNat, if_neg h1, if_neg h2, if_pos h3, List.cons_append,
          List.nil_append]
        rw [utf8Decode.eq_def]
        dsimp only
        rw [if_neg (by omega), if_neg (by omega), if_neg (by omega), if_pos (by omega)]
        rw [utf8Decode3.eq_def]
        dsimp only
        have harg : (224 + n / 4096 - 224) * 4096 + (128 + n / 64 % 64 - 128) * 64 +
            (128 + n % 64 - 128) = n := by omega
        rw [if_pos (by constructor <;> omega)]
        rw [if_pos (by rw [harg]; omega)]
        rw [harg]
      · simp only [utf8EncodeNat, if_neg h1, if_neg h2, if_neg h3, List.cons_append,
          List.nil_append]
        rw [utf8Decode.eq_def]
        dsimp only
        rw [if_neg (by omega), if_neg (by omega), if_neg (by omega), if_neg (by omega),
          if_pos (by omega)]
        rw [utf8Decode4.eq_def]
        dsimp only
        have harg : (240 + n / 262144 - 240) * 262144 + (128 + n / 4096 % 64 - 128) * 4096 +
            (128 + n / 64 % 64 - 128) * 64 + (128 + n % 64 - 128) = n := by omega
        rw [if_pos (by constructor <;> [omega; constructor <;> omega])]
        rw [if_pos (by rw [harg]; omega)]
        rw [harg]

theorem utf8Decode_encodeChar (c : Char) (rest : List Nat) :
    utf8Decode (utf8EncodeChar c ++ rest) = (utf8Decode rest).map (fun cs => c :: cs) := by
  rw [utf8EncodeChar, utf8Decode_encodeNat (char_valid_nat c) rest, Char.ofNat_toNat]

theorem utf8Decode_encode_append (s : List Char) (rest : List Nat) :
    utf8Decode (utf8Encode s ++ rest) = (utf8Decode rest).map (fun cs => s ++ cs) := by
  induction s with
  | nil => simp [utf8Encode]
  | cons c cs ih =>
    have : utf8Encode (c :: cs) = utf8EncodeChar c ++ utf8Encode cs := by
      simp [utf8Encode]
    rw [this, List.append_assoc, utf8Decode_encodeChar, ih]
    cases utf8Decode rest <;> simp

theorem utf8Decode_encode (s : List Char) : utf8Decode (utf8Encode s) = some s := by
  have := utf8Decode_encode_append s []
  simpa [utf8Decode] using this

theorem readLineBytes_cons_ne {b : Nat} (l : List Nat) (h : b ≠ 13) :
    readLineBytes (b :: l) = (b :: (readLineBytes l).1, (readLineBytes l).2) := by
  rw [readLineBytes.eq_def]
  split
  · rename_i heq
    exact absurd heq (by simp)
  · rename_i rest heq
    rw [List.cons.injEq] at heq
    exact absurd heq.1 h
  · rename_i b2 rest2 hno heq
    rw [List.cons.injEq] at heq
    rw [← heq.1, ← heq.2]

theorem readLineBytes_append_crlf (bs rest : List Nat) (h : (13 : Nat) ∉ bs) :
    readLineBytes (bs ++ 13 :: 10 :: rest) = (bs, rest) := by
  induction bs with
  | nil => rfl
  | cons b bs ih =>
    have hb : b ≠ 13 := by
      intro hb
      exact h (hb ▸ List.mem_cons_self b bs)
    have hbs : (13 : Nat) ∉ bs := fun hm => h (List.mem_cons_of_mem b hm)
    rw [List.cons_append, readLineBytes_cons_ne _ hb, ih hbs]

theorem digitChar_toNat {n : Nat} (h : n < 10) : (digitChar n).toNat = 48 + n :=
  toNat_ofNat_small (by omega)

theorem natDigitsCore_acc :
    ∀ fuel n acc, n < fuel →
      natDigitsCore fuel n acc = natDigitsCore fuel n [] ++ acc := by
  intro fuel
  induction fuel with
  | zero => intro n acc h; omega
  | succ f ih =>
    intro n acc h
    by_cases h10 : n < 10
    · simp [natDigitsCore, if_pos h10]
    · have hf : n / 10 < f := by omega
      simp only [natDigitsCore, if_neg h10]
      rw [ih _ _ hf, ih _ [digitChar (n % 10)] hf, List.append_assoc]
      rfl

theorem natDigitsCore_digits :
    ∀ fuel n acc, n < fuel → (∀ c ∈ acc, 48 ≤ c.toNat ∧ c.toNat ≤ 57) →
      ∀ c ∈ natDigitsCore fuel n acc, 48 ≤ c.toNat ∧ c.toNat ≤ 57 := by
  intro fuel
  induction fuel with
  | zero => intro n acc h; omega
  | succ f ih =>
    intro n acc h hacc c hc
    by_cases h10 : n < 10
    · rw [natDigitsCore, if_pos h10] at hc
      rcases List.mem_cons.mp hc with hc | hc
      · rw [hc, digitChar_toNat h10]
        omega
      · exact hacc c hc
    · rw [natDigitsCore, if_neg h10] at hc
      refine ih (n / 10) _ (by omega) ?_ c hc
      intro d hd
      rcases List.mem_cons.mp hd with hd | hd
      · rw [hd, digitChar_toNat (by omega)]
        omega
      · exact hacc d hd

theorem natDigitsCore_ne_nil :
    ∀ fuel n acc, n < fuel → natDigitsCore fuel n acc ≠ [] := by
  intro fuel
  induction fuel with
  | zero => intro n acc h; omega
  | succ f ih =>
    intro n acc h
    by_cases h10 : n < 10
    · simp [natDigitsCore, if_pos h10]
    · rw [natDigitsCore, if_neg h10]
      exact ih (n / 10) _ (by omega)

theorem natDigitsCore_foldl :
    ∀ fuel n a, n < fuel →
      (natDigitsCore fuel n []).foldl (fun x c => x * 10 + (c.toNat - 48)) a =
        a * 10 ^ (natDigitsCore fuel n []).length + n := by
  intro fuel
  induction fuel with
  | zero => intro n a h; omega
  | succ f ih =>
    intro n a h
    by_cases h10 : n < 10
    · rw [natDigitsCore, if_pos h10]
      simp only [List.foldl_cons, List.foldl_nil, List.length_cons, List.length_nil]
      rw [digitChar_toNat h10]
      have hsub : 48 + n - 48 = n := by omega
      rw [hsub]
      norm_num
    · have hf : n / 10 < f := by omega
      rw [natDigitsCore, if_neg h10, natDigitsCore_acc f _ _ hf]
      rw [List.foldl_append, List.length_append]
      rw [ih _ a hf]
      simp only [List.foldl_cons, List.foldl_nil, List.length_cons, List.length_nil]
      rw [digitChar_toNat (by omega)]
      have hsub : 48 + n % 10 - 48 = n % 10 := by omega
      rw [hsub]
      have hdm : n / 10 * 10 + n % 10 = n := by omega
      calc (a * 10 ^ (natDigitsCore f (n / 10) []).length + n / 10) * 10 + n % 10
          = a * (10 ^ (natDigitsCore f (n / 10) []).length * 10) + (n / 10 * 10 + n % 10) := by
            ring
        _ = a * 10 ^ ((natDigitsCore f (n / 10) []).length + (0 + 1)) + n := by
            rw [hdm, pow_add]
            norm_num

theorem natToString_digits {n : Nat} :
    ∀ c ∈ natToString n, 48 ≤ c.toNat ∧ c.toNat ≤ 57 :=
  natDigitsCore_digits (n + 1) n [] (by omega) (by intro c hc; cases hc)

theorem natToString_ne_nil (n : Nat) : natToString n ≠ [] :=
  natDigitsCore_ne_nil (n + 1) n [] (by omega)

theorem digitsVal_natToString (n : Nat) : digitsVal (natToString n) = some n := by
  rw [digitsVal, if_pos]
  · have := natDigitsCore_foldl (n + 1) n 0 (by omega)
    rw [natToString, this]
    simp
  · rw [Bool.and_eq_true, List.all_eq_true]
    constructor
    · simpa using natToString_ne_nil n
    · intro c hc
      have := natToString_digits c hc
      simp [isDigitChar]
      omega

theorem intToString_chars {i : Int} :
    ∀ c ∈ intToString i, c.toNat = 45 ∨ (48 ≤ c.toNat ∧ c.toNat ≤ 57) := by
  intro c hc
  rw [intToString] at hc
  by_cases hneg : i < 0
  · rw [if_pos hneg] at hc
    rcases List.mem_cons.mp hc with hc | hc
    · left
      rw [hc]
      decide
    · right
      exact natToString_digits c hc
  · rw [if_neg hneg] at hc
    right
    exact natToString_digits c hc

theorem parseI64_natToString {n : Nat} (h : n ≤ 9223372036854775807) :
    parseI64 (natToString n) = some ((n : Nat) : Int) := by
  obtain ⟨c, rest, hs⟩ := List.exists_cons_of_ne_nil (natToString_ne_nil n)
  have hc : 48 ≤ c.toNat ∧ c.toNat ≤ 57 := natToString_digits c (hs ▸ List.mem_cons_self c rest)
  have h43 : c ≠ Char.ofNat 43 := by
    intro he
    have : c.toNat = 43 := by rw [he]; decide
    omega
  have h45 : c ≠ Char.ofNat 45 := by
    intro he
    have : c.toNat = 45 := by rw [he]; decide
    omega
  rw [hs, parseI64, if_neg h43, if_neg h45, ← hs, digitsVal_natToString]
  simp [Option.bind, h, Int.ofNat_eq_coe]

theorem parseI64_intToString {i : Int}
    (hlo : -9223372036854775808 ≤ i) (hhi : i ≤ 9223372036854775807) :
    parseI64 (intToString i) = some i := by
  by_cases hneg : i < 0
  · rw [intToString, if_pos hneg]
    rw [parseI64, if_neg (by decide), if_pos rfl, digitsVal_natToString]
    have hb : i.natAbs ≤ 9223372036854775808 := by omega
    simp only [Option.bind, if_pos hb]
    have : -(Int.ofNat i.natAbs) = i := by
      simp only [Int.ofNat_eq_coe]
      omega
    rw [this]
  · rw [intToString, if_neg hneg]
    rw [parseI64_natToString (by omega)]
    have : ((i.toNat : Nat) : Int) = i := by omega
    rw [this]

theorem read_until_crlf_encode (s : List Char) (rest : List Nat)
    (hCR : Char.ofNat 13 ∉ s) :
    read_until_crlf (utf8Encode s ++ (13 :: 10 :: rest)) = .ok (s, rest) := by
  have h13 : (13 : Nat) ∉ utf8Encode s := not_mem_utf8Encode_of_small (by omega) hCR
  rw [read_until_crlf, readLineBytes_append_crlf _ _ h13]
  simp [utf8Decode_encode]

theorem natToString_no13 (n : Nat) : Char.ofNat 13 ∉ natToString n := by
  intro hm
  have := natToString_digits _ hm
  have h13 : (Char.ofNat 13).toNat = 13 := by decide
  omega

theorem intToString_no13 (i : Int) : Char.ofNat 13 ∉ intToString i := by
  intro hm
  have := intToString_chars _ hm
  have h13 : (Char.ofNat 13).toNat = 13 := by decide
  omega

theorem read_i64_natHeader {n : Nat} (rest : List Nat) (h : n ≤ 9223372036854775807) :
    read_i64 (utf8Encode (natToString n) ++ (13 :: 10 :: rest)) = .ok (((n : Nat) : Int), rest) := by
  rw [read_i64, read_until_crlf_encode _ _ (natToString_no13 n)]
  dsimp only
  rw [parseI64_natToString h]

theorem read_i64_intPayload {i : Int} (rest : List Nat)
    (hlo : -9223372036854775808 ≤ i) (hhi : i ≤ 9223372036854775807) :
    read_i64 (utf8Encode (intToString i) ++ (13 :: 10 :: rest)) = .ok (i, rest) := by
  rw [read_i64, read_until_crlf_encode _ _ (intToString_no13 i)]
  dsimp only
  rw [parseI64_intToString hlo hhi]

theorem parse_array_elems_zero (fuel : Nat) (s : List Nat) :
    parse_array_elems fuel 0 s = .ok ([], s) := by
  cases fuel <;> rfl

theorem cost_pos (v : Data) : 1 ≤ cost v := by
  cases v <;> simp [cost]

theorem parse_roundtrip_aux : ∀ k : Nat,
    (∀ v : Data, cost v ≤ k → wellFormed v = true →
      ∀ (rest : List Nat) (allow : Bool) (fuel : Nat), cost v ≤ fuel →
        parse fuel (ser v ++ rest) allow = .ok (some v, rest)) ∧
    (∀ vs : List Data, costList vs ≤ k → wellFormedList vs = true →
      ∀ (rest : List Nat) (fuel : Nat), costList vs ≤ fuel →
        parse_array_elems fuel vs.length (serList vs ++ rest) = .ok (vs, rest)) ∧
    (∀ vs : List Data, costList vs ≤ k → wellFormedList vs = true →
      ∀ (n fuel : Nat), vs.length < n → costList vs + 2 ≤ fuel →
        parse_array_elems fuel n (serList vs) = .ok (vs, [])) := by
  intro k
  induction k with
  | zero =>
    refine ⟨?_, ?_, ?_⟩
    · intro v hck
      have := cost_pos v
      omega
    · intro vs hck hwf rest fuel hcf
      cases vs with
      | nil => exact parse_array_elems_zero fuel rest
      | cons v vs =>
        have hc1 : costList (v :: vs) = cost v + costList vs + 1 := rfl
        have := cost_pos v
        omega
    · intro vs hck hwf n fuel hlen hcf
      cases vs with
      | nil =>
        obtain ⟨m, rfl⟩ : ∃ m, n = m + 1 := ⟨n - 1, by omega⟩
        obtain ⟨g, rfl⟩ : ∃ g, fuel = g + 2 := ⟨fuel - 2, by omega⟩
        rfl
      | cons v vs =>
        have hc1 : costList (v :: vs) = cost v + costList vs + 1 := rfl
        have := cost_pos v
        omega
  | succ k ih =>
    obtain ⟨ih1, ih2, ih3⟩ := ih
    refine ⟨?_, ?_, ?_⟩
    · intro v hck hwf rest allow fuel hcf
      cases v with
      | string s =>
        simp only [wellFormed, Bool.and_eq_true, decide_eq_true_eq] at hwf
        have hc1 : cost (Data.string s) = 1 := rfl
        obtain ⟨f, rfl⟩ : ∃ f, fuel = f + 1 := ⟨fuel - 1, by omega⟩
        simp only [ser, List.cons_append, List.append_assoc, List.nil_append]
        rw [parse.eq_def]
        dsimp only
        rw [if_pos rfl]
        simp only [parse_string]
        rw [read_until_crlf_encode s rest hwf.1]
        rfl
      | error s =>
        simp only [wellFormed, Bool.and_eq_true, decide_eq_true_eq] at hwf
        have hc1 : cost (Data.error s) = 1 := rfl
        obtain ⟨f, rfl⟩ : ∃ f, fuel = f + 1 := ⟨fuel - 1, by omega⟩
        simp only [ser, List.cons_append, List.append_assoc, List.nil_append]
        rw [parse.eq_def]
        dsimp only
        rw [if_neg (by decide), if_pos rfl]
        simp only [parse_error]
        rw [read_until_crlf_encode s rest hwf.1]
        rfl
      | integer i =>
        simp only [wellFormed, decide_eq_true_eq] at hwf
        have hc1 : cost (Data.integer i) = 1 := rfl
        obtain ⟨f, rfl⟩ : ∃ f, fuel = f + 1 := ⟨fuel - 1, by omega⟩
        simp only [ser, List.cons_append, List.append_assoc, List.nil_append]
        rw [parse.eq_def]
        dsimp only
        rw [if_neg (by decide), if_neg (by decide), if_pos rfl]
        simp only [parse_integer]
        rw [read_until_crlf_encode _ _ (intToString_no13 i)]
        dsimp only
        rw [parseI64_intToString hwf.1 hwf.2]
        rfl
      | bulkString s =>
        simp only [wellFormed, decide_eq_true_eq] at hwf
        have hc1 : cost (Data.bulkString s) = 1 := rfl
        obtain ⟨f, rfl⟩ : ∃ f, fuel = f + 1 := ⟨fuel - 1, by omega⟩
        simp only [ser, List.cons_append, List.append_assoc, List.nil_append]
        rw [parse.eq_def]
        dsimp only
        rw [if_neg (by decide), if_neg (by decide), if_neg (by decide), if_neg (by decide),
          if_pos rfl]
        simp only [parse_bulk_string]
        rw [read_i64_natHeader _ hwf]
        dsimp only
        rw [if_neg (by omega), if_neg (by omega)]
        have ht : (((utf8Encode s).length : Nat) : Int).toNat = (utf8Encode s).length := rfl
        rw [ht]
        simp only [read_exact]
        rw [if_pos (by simp [List.length_append])]
        rw [List.take_left, List.drop_left]
        dsimp only
        rw [utf8Decode_encode]
        rfl
      | array arr =>
        simp only [wellFormed, Bool.and_eq_true, decide_eq_true_eq] at hwf
        have hc1 : cost (Data.array arr) = costList arr + 2 := rfl
        rw [hc1] at hck hcf
        obtain ⟨g, rfl⟩ : ∃ g, fuel = g + 2 := ⟨fuel - 2, by omega⟩
        simp only [ser, List.cons_append, List.append_assoc, List.nil_append]
        rw [parse.eq_def]
        dsimp only
        rw [if_neg (by decide), if_neg (by decide), if_neg (by decide), if_pos rfl]
        rw [parse_array.eq_def]
        dsimp only
        rw [read_i64_natHeader _ hwf.1]
        dsimp only
        rw [if_neg (by omega), if_neg (by omega)]
        have ht : ((arr.length : Nat) : Int).toNat = arr.length := rfl
        rw [ht]
        rw [ih2 arr (by omega) hwf.2 rest g (by omega)]
        rfl
      | nullBulkString =>
        have hc1 : cost Data.nullBulkString = 1 := rfl
        obtain ⟨f, rfl⟩ : ∃ f, fuel = f + 1 := ⟨fuel - 1, by omega⟩
        rfl
      | nullArray =>
        have hc1 : cost Data.nullArray = 2 := rfl
        obtain ⟨g, rfl⟩ : ∃ g, fuel = g + 2 := ⟨fuel - 2, by omega⟩
        rfl
    · intro vs hck hwf rest fuel hcf
      cases vs with
      | nil => exact parse_array_elems_zero fuel rest
      | cons v vs =>
        have hc1 : costList (v :: vs) = cost v + costList vs + 1 := rfl
        rw [hc1] at hck hcf
        simp only [wellFormedList, Bool.and_eq_true] at hwf
        obtain ⟨f, rfl⟩ : ∃ f, fuel = f + 1 := ⟨fuel - 1, by omega⟩
        simp only [List.length_cons, serList, List.append_assoc]
        rw [parse_array_elems.eq_def]
        dsimp only
        rw [ih1 v (by omega) hwf.1 (serList vs ++ rest) false f (by omega)]
        dsimp only
        rw [ih2 vs (by omega) hwf.2 rest f (by omega)]
        rfl
    · intro vs hck hwf n fuel hlen hcf
      cases vs with
      | nil =>
        obtain ⟨m, rfl⟩ : ∃ m, n = m + 1 := ⟨n - 1, by omega⟩
        obtain ⟨g, rfl⟩ : ∃ g, fuel = g + 2 := ⟨fuel - 2, by omega⟩
        rfl
      | cons v vs =>
        have hc1 : costList (v :: vs) = cost v + costList vs + 1 := rfl
        rw [hc1] at hck hcf
        simp only [wellFormedList, Bool.and_eq_true] at hwf
        simp only [List.length_cons] at hlen
        obtain ⟨m, rfl⟩ : ∃ m, n = m + 1 := ⟨n - 1, by omega⟩
        obtain ⟨f, rfl⟩ : ∃ f, fuel = f + 1 := ⟨fuel - 1, by omega⟩
        simp only [serList]
        rw [parse_array_elems.eq_def]
        dsimp only
        rw [ih1 v (by omega) hwf.1 (serList vs) false f (by omega)]
        dsimp only
        rw [ih3 vs (by omega) hwf.2 m f (by omega) (by omega)]
        rfl

theorem utf8EncodeChar_ne_nil (c : Char) : utf8EncodeChar c ≠ [] := by
  rw [utf8EncodeChar, utf8EncodeNat]
  split_ifs <;> simp

theorem length_utf8Encode_pos {s : List Char} (h : s ≠ []) : 1 ≤ (utf8Encode s).length := by
  cases s with
  | nil => exact absurd rfl h
  | cons c cs =>
    have : utf8Encode (c :: cs) = utf8EncodeChar c ++ utf8Encode cs := by
      simp [utf8Encode]
    rw [this, List.length_append]
    have := utf8EncodeChar_ne_nil c
    have : 1 ≤ (utf8EncodeChar c).length := by
      cases hc : utf8EncodeChar c with
      | nil => exact absurd hc this
      | cons b bs => simp
    omega

theorem cost_le_aux : ∀ k : Nat,
    (∀ v : Data, cost v ≤ k → cost v + 2 ≤ 2 * (ser v).length) ∧
    (∀ vs : List Data, costList vs ≤ k → costList vs ≤ 2 * (serList vs).length) := by
  intro k
  induction k with
  | zero =>
    refine ⟨?_, ?_⟩
    · intro v h
      have := cost_pos v
      omega
    · intro vs h
      cases vs with
      | nil =>
        have hc : costList ([] : List Data) = 0 := rfl
        omega
      | cons v vs =>
        have hc : costList (v :: vs) = cost v + costList vs + 1 := rfl
        have := cost_pos v
        omega
  | succ k ih =>
    refine ⟨?_, ?_⟩
    · intro v h
      cases v with
      | string s =>
        have hc : cost (Data.string s) = 1 := rfl
        have hl : (ser (Data.string s)).length = (utf8Encode s).length + 3 := by
          simp [ser]
        omega
      | error s =>
        have hc : cost (Data.error s) = 1 := rfl
        have hl : (ser (Data.error s)).length = (utf8Encode s).length + 3 := by
          simp [ser]
        omega
      | integer i =>
        have hc : cost (Data.integer i) = 1 := rfl
        have hl : (ser (Data.integer i)).length = (utf8Encode (intToString i)).length + 3 := by
          simp [ser]
        omega
      | bulkString s =>
        have hc : cost (Data.bulkString s) = 1 := rfl
        have hl : 3 ≤ (ser (Data.bulkString s)).length := by
          simp [ser]
          omega
        omega
      | array arr =>
        have hc : cost (Data.array arr) = costList arr + 2 := rfl
        have hl : (serList arr).length + 4 ≤ (ser (Data.array arr)).length := by
          have h1 : 1 ≤ (utf8Encode (natToString arr.length)).length :=
            length_utf8Encode_pos (natToString_ne_nil arr.length)
          simp [ser]
          omega
        have h2 := ih.2 arr (by omega)
        omega
      | nullBulkString =>
        have hc : cost Data.nullBulkString = 1 := rfl
        have hl : (ser Data.nullBulkString).length = 5 := rfl
        omega
      | nullArray =>
        have hc : cost Data.nullArray = 2 := rfl
        have hl : (ser Data.nullArray).length = 5 := rfl
        omega
    · intro vs h
      cases vs with
      | nil =>
        have hc : costList ([] : List Data) = 0 := rfl
        omega
      | cons v vs =>
        have hc : costList (v :: vs) = cost v + costList vs + 1 := rfl
        have hl : (serList (v :: vs)).length = (ser v).length + (serList vs).length := by
          simp [serList]
        have h1 := ih.1 v (by omega)
        have h2 := ih.2 vs (by omega)
        omega

theorem parseTop_ser {v : Data} (hwf : wellFormed v = true) (allow : Bool) :
    parseTop (ser v) allow = .ok (some v, []) := by
  have h1 := (cost_le_aux (cost v)).1 v le_rfl
  have h2 := (parse_roundtrip_aux (cost v)).1 v le_rfl hwf [] allow
    (2 * (ser v).length + 2) (by omega)
  rw [parseTop]
  simpa using h2

theorem parseTop_array_exact (vs : List Data) (rest : List Nat) (allow : Bool)
    (hwf : wellFormedList vs = true) (hmax : vs.length ≤ 9223372036854775807) :
    parseTop (42 :: (utf8Encode (natToString vs.length) ++ (13 :: 10 :: (serList vs ++ rest))))
      allow = .ok (some (.array vs), rest) := by
  rw [parseTop]
  have hlen : (42 :: (utf8Encode (natToString vs.length) ++
      (13 :: 10 :: (serList vs ++ rest)))).length =
      (utf8Encode (natToString vs.length)).length + (serList vs).length + rest.length + 3 := by
    simp
    omega
  obtain ⟨g, hg⟩ : ∃ g, 2 * (42 :: (utf8Encode (natToString vs.length) ++
      (13 :: 10 :: (serList vs ++ rest)))).length + 2 = g + 2 := ⟨_, rfl⟩
  rw [hg]
  have hcost := (cost_le_aux (costList vs)).2 vs le_rfl
  rw [parse.eq_def]
  dsimp only
  rw [if_neg (by decide), if_neg (by decide), if_neg (by decide), if_pos rfl]
  obtain ⟨g1, rfl⟩ : ∃ g1, g = g1 + 1 := ⟨g - 1, by omega⟩
  rw [parse_array.eq_def]
  dsimp only
  rw [read_i64_natHeader _ hmax]
  dsimp only
  rw [if_neg (by omega), if_neg (by omega)]
  have ht : ((vs.length : Nat) : Int).toNat = vs.length := rfl
  rw [ht]
  rw [(parse_roundtrip_aux (costList vs)).2.1 vs le_rfl hwf rest (g1 + 1) (by omega)]
  rfl

theorem parseTop_array_short (vs : List Data) (n : Nat) (allow : Bool)
    (hwf : wellFormedList vs = true) (hshort : vs.length < n)
    (hmax : n ≤ 9223372036854775807) :
    parseTop (42 :: (utf8Encode (natToString n) ++ (13 :: 10 :: serList vs)))
      allow = .ok (some (.array vs), []) := by
  rw [parseTop]
  have hlen : (42 :: (utf8Encode (natToString n) ++ (13 :: 10 :: serList vs))).length =
      (utf8Encode (natToString n)).length + (serList vs).length + 3 := by
    simp
    omega
  obtain ⟨g, hg⟩ : ∃ g, 2 * (42 :: (utf8Encode (natToString n) ++
      (13 :: 10 :: serList vs))).length + 2 = g + 2 := ⟨_, rfl⟩
  rw [hg]
  have hcost := (cost_le_aux (costList vs)).2 vs le_rfl
  rw [parse.eq_def]
  dsimp only
  rw [if_neg (by decide), if_neg (by decide), if_neg (by decide), if_pos rfl]
  obtain ⟨g1, rfl⟩ : ∃ g1, g = g1 + 1 := ⟨g - 1, by omega⟩
  rw [parse_array.eq_def]
  dsimp only
  rw [read_i64_natHeader _ hmax]
  dsimp only
  rw [if_neg (by omega), if_neg (by omega)]
  have ht : ((n : Nat) : Int).toNat = n := rfl
  rw [ht]
  rw [(parse_roundtrip_aux (costList vs)).2.2 vs le_rfl hwf n (g1 + 1) hshort (by omega)]
  rfl

theorem execute_items_cons_array (store : StoreT) (inner rest : List Data) :
    execute_items store (.array inner :: rest) =
      ((execute_items (execute_commands store inner).1 rest).1,
        (execute_commands store inner).2 ++
          (execute_items (execute_commands store inner).1 rest).2) := by
  rw [execute_items.eq_def]
  unfold execute_commands
  rfl

theorem map_pair_ne_ok_none (r : Except ParseError (Data × List Nat)) (x : List Nat) :
    r.map (fun p => (some p.1, p.2)) ≠ .ok ((none : Option Data), x) := by
  cases r with
  | error e => simp [Except.map]
  | ok p => simp [Except.map]

theorem parse_ok_none_iff (s : List Nat) (allow : Bool) (fuel : Nat) (hf : 1 ≤ fuel) :
    (∃ r, parse fuel s allow = .ok (none, r)) ↔
      (s = [] ∨ (allow = false ∧
        ∃ b rest, s = b :: rest ∧ b ≠ 43 ∧ b ≠ 45 ∧ b ≠ 58 ∧ b ≠ 42 ∧ b ≠ 36)) := by
  obtain ⟨f, rfl⟩ : ∃ f, fuel = f + 1 := ⟨fuel - 1, by omega⟩
  constructor
  · rintro ⟨r, hr⟩
    cases s with
    | nil => exact Or.inl rfl
    | cons b rest =>
      right
      rw [parse.eq_def] at hr
      dsimp only at hr
      by_cases h43 : b = 43
      · rw [if_pos h43] at hr
        exact absurd hr (map_pair_ne_ok_none _ _)
      rw [if_neg h43] at hr
      by_cases h45 : b = 45
      · rw [if_pos h45] at hr
        exact absurd hr (map_pair_ne_ok_none _ _)
      rw [if_neg h45] at hr
      by_cases h58 : b = 58
      · rw [if_pos h58] at hr
        exact absurd hr (map_pair_ne_ok_none _ _)
      rw [if_neg h58] at hr
      by_cases h42 : b = 42
      · rw [if_pos h42] at hr
        exact absurd hr (map_pair_ne_ok_none _ _)
      rw [if_neg h42] at hr
      by_cases h36 : b = 36
      · rw [if_pos h36] at hr
        exact absurd hr (map_pair_ne_ok_none _ _)
      rw [if_neg h36] at hr
      cases hallow : allow with
      | true =>
        rw [hallow] at hr
        rw [if_pos rfl] at hr
        exact absurd hr (map_pair_ne_ok_none _ _)
      | false =>
        rw [hallow] at hr
        refine ⟨rfl, b, rest, rfl, h43, h45, h58, h42, h36⟩
  · rintro (rfl | ⟨hallow, b, rest, rfl, h43, h45, h58, h42, h36⟩)
    · exact ⟨[], rfl⟩
    · refine ⟨rest, ?_⟩
      rw [parse.eq_def]
      dsimp only
      rw [if_neg h43, if_neg h45, if_neg h58, if_neg h42, if_neg h36, hallow]
      rfl

theorem connStep_not_array {store : StoreT} {chunk : List Nat}
    (h : ∀ arr r, parseTop chunk true ≠ .ok (some (.array arr), r)) :
    connStep store chunk = (store, []) := by
  rw [connStep]
  split
  · rename_i arr r heq
    exact absurd heq (h arr r)
  · rfl

theorem connStep_error {store : StoreT} {chunk : List Nat} {e : ParseError}
    (h : parseTop chunk true = .error e) :
    connStep store chunk = (store, []) := by
  refine connStep_not_array ?_
  intro arr r hc
  rw [h] at hc
  exact Except.noConfusion hc

theorem runConn_cons (store : StoreT) (c : List Nat) (rest : List (List Nat)) :
    runConn store (c :: rest) =
      ((runConn (connStep store c).1 rest).1,
        (connStep store c).2 ++ (runConn (connStep store c).1 rest).2) := rfl

theorem runConn_skip_of_error {store : StoreT} {chunk : List Nat} {e : ParseError}
    (rest : List (List Nat)) (h : parseTop chunk true = .error e) :
    runConn store (chunk :: rest) = runConn store rest := by
  rw [runConn_cons, connStep_error h]
  simp

theorem execute_commands_unknown {store : StoreT} {arr : List Data} {cmd : List Char}
    (hcmd : commands.get_arg arr 0 = some cmd)
    (h1 : cmd ≠ strData ("PING")) (h2 : cmd ≠ strData ("SET"))
    (h3 : cmd ≠ strData ("GET")) (h4 : cmd ≠ strData ("DEL")) :
    execute_commands store arr = (store, ser_error (strData ("Unknown command"))) := by
  rw [execute_commands, hcmd]
  unfold run_command
  dsimp only
  rw [if_neg h1, if_neg h2, if_neg h3, if_neg h4]

theorem storeGet_storeSet_self (m : StoreT) (k v : List Char) :
    storeGet (storeSet m k v) k = some v := by
  induction m with
  | nil => simp [storeSet, storeGet]
  | cons p rest ih =>
    obtain ⟨k1, v1⟩ := p
    by_cases h : k1 = k
    · simp [storeSet, storeGet, h]
    · simp [storeSet, storeGet, h, ih]

theorem storeGet_storeRemove_ne {key k : List Char} (m : StoreT) (h : key ≠ k) :
    storeGet (storeRemove m k) key = storeGet m key := by
  induction m with
  | nil => rfl
  | cons p rest ih =>
    obtain ⟨k1, v1⟩ := p
    by_cases hk : k1 = k
    · rw [storeRemove, if_pos hk, storeGet, if_neg (by rw [hk]; exact fun he => h he.symm)]
    · rw [storeRemove, if_neg hk]
      by_cases hkey : k1 = key
      · rw [storeGet, if_pos hkey, storeGet, if_pos hkey]
      · rw [storeGet, if_neg hkey, storeGet, if_neg hkey]
        exact ih

theorem storeGet_eq_none_of_not_mem_keys {m : StoreT} {k : List Char}
    (h : k ∉ m.map Prod.fst) : storeGet m k = none := by
  induction m with
  | nil => rfl
  | cons p rest ih =>
    obtain ⟨k1, v1⟩ := p
    simp only [List.map_cons, List.mem_cons, not_or] at h
    rw [storeGet, if_neg (fun he => h.1 he.symm)]
    exact ih h.2

theorem storeRemove_sublist (m : StoreT) (k : List Char) :
    List.Sublist (storeRemove m k) m := by
  induction m with
  | nil => simp [storeRemove]
  | cons p rest ih =>
    obtain ⟨k1, v1⟩ := p
    by_cases h : k1 = k
    · rw [storeRemove, if_pos h]
      exact List.sublist_cons_self _ _
    · rw [storeRemove, if_neg h]
      exact ih.cons₂ _

theorem nodup_keys_storeRemove {m : StoreT} (k : List Char)
    (h : (m.map Prod.fst).Nodup) : ((storeRemove m k).map Prod.fst).Nodup :=
  ((storeRemove_sublist m k).map Prod.fst).nodup h

theorem storeGet_storeRemove_self {m : StoreT} (k : List Char)
    (hm : (m.map Prod.fst).Nodup) : storeGet (storeRemove m k) k = none := by
  induction m with
  | nil => rfl
  | cons p rest ih =>
    obtain ⟨k1, v1⟩ := p
    simp only [List.map_cons, List.nodup_cons] at hm
    by_cases h : k1 = k
    · rw [storeRemove, if_pos h]
      refine storeGet_eq_none_of_not_mem_keys ?_
      rw [← h]
      exact hm.1
    · rw [storeRemove, if_neg h, storeGet, if_neg h]
      exact ih hm.2

theorem storeContains_storeRemove_ne {key k : List Char} (m : StoreT) (h : key ≠ k) :
    storeContains (storeRemove m k) key = storeContains m key := by
  rw [storeContains, storeContains, storeGet_storeRemove_ne m h]

theorem storeDel_count_nodup (keys : List (List Char)) :
    ∀ m : StoreT, keys.Nodup →
      (storeDel m keys).2 = ((keys.filter (fun k => storeContains m k)).length : Int) := by
  induction keys with
  | nil =>
    intro m hn
    rfl
  | cons k rest ih =>
    intro m hn
    rw [List.nodup_cons] at hn
    by_cases hc : storeContains m k
    · rw [storeDel, if_pos hc]
      dsimp only
      rw [ih (storeRemove m k) hn.2]
      have hcong : rest.filter (fun x => storeContains (storeRemove m k) x) =
          rest.filter (fun x => storeContains m x) := by
        refine List.filter_congr ?_
        intro x hx
        exact storeContains_storeRemove_ne m (fun he => hn.1 (he ▸ hx))
      rw [hcong, List.filter_cons, if_pos (by simpa using hc)]
      simp
    · rw [storeDel, if_neg hc]
      rw [ih m hn.2]
      rw [List.filter_cons, if_neg (by simpa using hc)]

theorem storeGet_storeDel_not_mem (keys : List (List Char)) :
    ∀ (m : StoreT) (key : List Char), key ∉ keys →
      storeGet (storeDel m keys).1 key = storeGet m key := by
  induction keys with
  | nil =>
    intro m key h
    rfl
  | cons k rest ih =>
    intro m key h
    simp only [List.mem_cons, not_or] at h
    by_cases hc : storeContains m k
    · rw [storeDel, if_pos hc]
      dsimp only
      rw [ih (storeRemove m k) key h.2, storeGet_storeRemove_ne m h.1]
    · rw [storeDel, if_neg hc]
      exact ih m key h.2

theorem storeGet_storeDel_mem (keys : List (List Char)) :
    ∀ (m : StoreT) (key : List Char), (m.map Prod.fst).Nodup → key ∈ keys →
      storeGet (storeDel m keys).1 key = none := by
  induction keys with
  | nil =>
    intro m key hm h
    exact absurd h (List.not_mem_nil key)
  | cons k rest ih =>
    intro m key hm h
    by_cases hkk : key = k
    · subst hkk
      by_cases hc : storeContains m key
      · rw [storeDel, if_pos hc]
        dsimp only
        by_cases hkr : key ∈ rest
        · exact ih (storeRemove m key) key (nodup_keys_storeRemove key hm) hkr
        · rw [storeGet_storeDel_not_mem rest (storeRemove m key) key hkr]
          exact storeGet_storeRemove_self key hm
      · rw [storeDel, if_neg hc]
        have hnone : storeGet m key = none := by
          rw [storeContains] at hc
          exact Option.not_isSome_iff_eq_none.mp (by simpa using hc)
        by_cases hkr : key ∈ rest
        · exact ih m key hm hkr
        · rw [storeGet_storeDel_not_mem rest m key hkr]
          exact hnone
    · have hkr : key ∈ rest := by
        rcases List.mem_cons.mp h with h1 | h1
        · exact absurd h1 hkk
        · exact h1
      by_cases hc : storeContains m k
      · rw [storeDel, if_pos hc]
        dsimp only
        exact ih (storeRemove m k) key (nodup_keys_storeRemove k hm) hkr
      · rw [storeDel, if_neg hc]
        exact ih m key hm hkr

theorem extract_keys_foldl (args : List Data) :
    ∀ acc : List (List Char),
      args.foldl
        (fun acc curr =>
          match curr with
          | .string s => acc ++ [s]
          | .bulkString s => acc ++ [s]
          | _ => acc)
        acc = acc ++ args.filterMap keyOf := by
  induction args with
  | nil =>
    intro acc
    simp
  | cons d rest ih =>
    intro acc
    cases d <;> simp [keyOf, List.foldl_cons, ih]

theorem extract_keys_eq (args : List Data) :
    commands.extract_keys args = args.filterMap keyOf := by
  rw [commands.extract_keys, extract_keys_foldl]
  simp

/-- C1 (counterexample): the round-trip law as stated fails on
`Error "a\r\nb"`, a value satisfying every condition the claim lists
(they constrain only SimpleString text, BulkString payload and arrays):
parsing its serialization yields `Error "a"` with leftover bytes, not the
original value. -/
theorem roundtrip_counterexample :
    parseTop (ser (Data.error (strData ("a\r\nb")))) true =
      .ok (some (Data.error (strData ("a"))), bytesOf ("b\r\n")) ∧
    parseTop (ser (Data.error (strData ("a\r\nb")))) true ≠
      .ok (some (Data.error (strData ("a\r\nb"))), []) := by
  constructor
  · rfl
  · intro h
    have h2 : (Except.ok (some (Data.error (strData ("a"))), bytesOf ("b\r\n")) :
        Except ParseError (Option Data × List Nat)) =
        .ok (some (Data.error (strData ("a\r\nb"))), []) := h
    simp only [Except.ok.injEq, Prod.mk.injEq, Option.some.injEq, Data.error.injEq] at h2
    exact absurd h2.1 (by decide)

/-- C1 (amended): for every wire value that is well formed in the sense of
`wellFormed` — SimpleString AND Error text free of CR and LF, integer
payloads and declared lengths within the `i64` bounds the Rust types
impose — parsing the serialization yields exactly the value with the whole
input consumed, for either setting of `allow_pipeline`. -/
theorem roundtrip_of_wellFormed (v : Data) (allow : Bool)
    (hwf : wellFormed v = true) :
    parseTop (ser v) allow = .ok (some v, []) :=
  parseTop_ser hwf allow

/-- C1 (witness): the amended round-trip law evaluated on a nested
concrete value. -/
theorem roundtrip_of_wellFormed_witness :
    wellFormed (Data.array [Data.string (strData ("hi")), Data.integer (-5),
      Data.bulkString (strData ("héllo")), Data.nullBulkString, Data.nullArray,
      Data.array []]) = true ∧
    parseTop (ser (Data.array [Data.string (strData ("hi")), Data.integer (-5),
      Data.bulkString (strData ("héllo")), Data.nullBulkString, Data.nullArray,
      Data.array []])) true =
      .ok (some (Data.array [Data.string (strData ("hi")), Data.integer (-5),
        Data.bulkString (strData ("héllo")), Data.nullBulkString, Data.nullArray,
        Data.array []]), []) :=
  ⟨by decide, roundtrip_of_wellFormed _ true (by decide)⟩

/-- C2 (counterexample): an Array header declaring 2 elements followed by
only one well-formed sub-value before end of stream parses successfully to
a one-element Array — the parser returns a short Array instead of the
decode error the claim requires. -/
theorem array_framing_counterexample :
    parseTop (bytesOf ("*2\r\n+a\r\n")) true =
      .ok (some (Data.array [Data.string (strData ("a"))]), []) ∧
    [Data.string (strData ("a"))].length = 1 ∧
    ∀ e : ParseError, parseTop (bytesOf ("*2\r\n+a\r\n")) true ≠ .error e := by
  refine ⟨rfl, rfl, ?_⟩
  intro e h
  have h2 : (Except.ok (some (Data.array [Data.string (strData ("a"))]), ([] : List Nat)) :
      Except ParseError (Option Data × List Nat)) = .error e := h
  exact Except.noConfusion h2

/-- C2 (amended): an Array header declaring N consumes exactly N
well-formed sub-values when at least N are available (returning an Array
of length N and leaving the rest of the stream untouched); when the stream
ends after only k < N well-formed sub-values, the parser does not raise a
decode error but returns the short Array of the k elements parsed. -/
theorem array_framing_amended :
    (∀ (vs : List Data) (rest : List Nat) (allow : Bool),
      wellFormedList vs = true → vs.length ≤ 9223372036854775807 →
      parseTop (42 :: (utf8Encode (natToString vs.length) ++
        (13 :: 10 :: (serList vs ++ rest)))) allow = .ok (some (.array vs), rest)) ∧
    (∀ (vs : List Data) (n : Nat) (allow : Bool),
      wellFormedList vs = true → vs.length < n → n ≤ 9223372036854775807 →
      parseTop (42 :: (utf8Encode (natToString n) ++ (13 :: 10 :: serList vs)))
        allow = .ok (some (.array vs), [])) :=
  ⟨fun vs rest allow hwf hmax => parseTop_array_exact vs rest allow hwf hmax,
   fun vs n allow hwf hshort hmax => parseTop_array_short vs n allow hwf hshort hmax⟩

/-- C2 (witness): the amended framing law on concrete streams: `*2` with
two values parses to both with nothing left; `*3` with one value and end
of stream parses to the short one-element Array. -/
theorem array_framing_amended_witness :
    wellFormedList [Data.string (strData ("a")), Data.string (strData ("b"))] = true ∧
    parseTop (bytesOf ("*2\r\n+a\r\n+b\r\n")) true =
      .ok (some (Data.array [Data.string (strData ("a")), Data.string (strData ("b"))]), []) ∧
    parseTop (bytesOf ("*3\r\n+a\r\n")) true =
      .ok (some (Data.array [Data.string (strData ("a"))]), []) :=
  ⟨by decide,
   array_framing_amended.1 [Data.string (strData ("a")), Data.string (strData ("b"))]
     [] true (by decide) (by decide),
   array_framing_amended.2 [Data.string (strData ("a"))] 3 true (by decide) (by decide)
     (by decide)⟩

/-- C3 (counterexample): `parse` also returns `Ok(None)` on a non-empty
stream: with `allow_pipeline = false` an unrecognized lead byte (here
`x` = 120) is consumed and `Ok(None)` is returned, contradicting the claim
that `Ok(None)` occurs only at a clean end of input with zero bytes
consumed. -/
theorem parse_ok_none_counterexample :
    parseTop [120] false = .ok (none, []) ∧ ([120] : List Nat) ≠ [] :=
  ⟨rfl, by decide⟩

/-- C3 (amended): `parse` returns `Ok(None)` exactly when the stream is at
a clean end of input, or when `allow_pipeline` is false and the lead byte
is none of `+ - : * $` (the byte is consumed in that case); in particular
a result of `Ok(None)` can never arise from the type-prefixed branches. -/
theorem parse_ok_none_characterization (s : List Nat) (allow : Bool) :
    (∃ r, parseTop s allow = .ok (none, r)) ↔
      (s = [] ∨ (allow = false ∧
        ∃ b rest, s = b :: rest ∧ b ≠ 43 ∧ b ≠ 45 ∧ b ≠ 58 ∧ b ≠ 42 ∧ b ≠ 36)) :=
  parse_ok_none_iff s allow _ (by omega)

/-- C4 (counterexample): a decode error is not fatal: after the chunk
`:abc` fails to decode (`Int` error), the dispatcher keeps reading; the
next chunk `PING` is still parsed, dispatched and answered with `+PONG`. -/
theorem decode_error_counterexample :
    parseTop (bytesOf (":abc\r\n")) true = .error .intErr ∧
    runConn [] [bytesOf (":abc\r\n"), bytesOf ("PING\r\n")] =
      ([], ser_string (strData ("PONG"))) ∧
    ser_string (strData ("PONG")) ≠ [] :=
  ⟨rfl, rfl, by decide⟩

/-- C4 (amended): a chunk whose parse yields a decode error is silently
dropped: no reply bytes are produced for it, the store is untouched, and
the connection loop continues with the remaining chunks exactly as if the
bad chunk had not been received; only the end of the stream (or an I/O
read failure, modelled the same way) ends the connection. -/
theorem decode_error_skips_chunk (store : StoreT) (chunk : List Nat) (e : ParseError)
    (rest : List (List Nat)) (h : parseTop chunk true = .error e) :
    runConn store (chunk :: rest) = runConn store rest :=
  runConn_skip_of_error rest h

/-- C4 (witness): the amended behavior on the concrete bad chunk `:abc`. -/
theorem decode_error_skips_chunk_witness :
    parseTop (bytesOf (":abc\r\n")) true = .error .intErr ∧
    runConn [] [bytesOf (":abc\r\n"), bytesOf ("PING\r\n")] =
      runConn [] [bytesOf ("PING\r\n")] :=
  ⟨rfl, decode_error_skips_chunk [] (bytesOf (":abc\r\n")) .intErr
    [bytesOf ("PING\r\n")] rfl⟩

/-- C5 (counterexample): the pipelined write "SET a 1\r\nGET a\r\n"
does not produce the two replies `+OK` then `$1 1`: the dispatcher
produces a single reply, `-No value provided`. -/
theorem pipelining_counterexample :
    runConn [] [bytesOf ("SET a 1\r\nGET a\r\n")] =
      ([], ser_error (strData ("No value provided"))) ∧
    runConn [] [bytesOf ("SET a 1\r\nGET a\r\n")] ≠
      ([], ser_string (strData ("OK")) ++ ser_bulk_string (strData ("1"))) := by
  constructor
  · rfl
  · intro h
    have h2 : (([], ser_error (strData ("No value provided"))) : StoreT × List Nat) =
        ([], ser_string (strData ("OK")) ++ ser_bulk_string (strData ("1"))) := h
    have h3 := congrArg Prod.snd h2
    exact absurd h3 (by decide)

/-- C5 (amended): on the single write "SET a 1\r\nGET a\r\n" the
dispatcher parses only the first inline line (the second request is
discarded with the unconsumed remainder), the token `1` is coerced to an
Integer element that `get_arg` cannot see, and the connection therefore
sends exactly one reply, `-No value provided`, leaving the store empty. -/
theorem pipelining_amended :
    parseTop (bytesOf ("SET a 1\r\nGET a\r\n")) true =
      .ok (some (Data.array [Data.string (strData ("SET")), Data.string (strData ("a")),
        Data.integer 1]), bytesOf ("GET a\r\n")) ∧
    runConn [] [bytesOf ("SET a 1\r\nGET a\r\n")] =
      ([], ser_error (strData ("No value provided"))) :=
  ⟨rfl, rfl⟩

/-- C6: SET replies SimpleString "OK" exactly when both a string-kind key
(index 1) and value (index 2) are present, for every store (prior
existence of the key is irrelevant); on success the store maps the key to
the new value, so a subsequent GET of that key returns it as a BulkString;
with a key but no value it replies Error "No value provided" and with no
key Error "No key provided", leaving the store unchanged in both error
cases. -/
theorem set_command_spec :
    (∀ (store : StoreT) (args : List Data),
      (commands.set store args).2 = ser_string (strData ("OK")) ↔
        ((commands.get_arg args 1).isSome ∧ (commands.get_arg args 2).isSome)) ∧
    (∀ (store : StoreT) (args : List Data) (k v : List Char),
      commands.get_arg args 1 = some k → commands.get_arg args 2 = some v →
      commands.set store args = (storeSet store k v, ser_string (strData ("OK"))) ∧
      (∀ args2 : List Data, commands.get_arg args2 1 = some k →
        commands.get (storeSet store k v) args2 = ser_bulk_string v)) ∧
    (∀ (store : StoreT) (args : List Data) (k : List Char),
      commands.get_arg args 1 = some k → commands.get_arg args 2 = none →
      commands.set store args = (store, ser_error (strData ("No value provided")))) ∧
    (∀ (store : StoreT) (args : List Data),
      commands.get_arg args 1 = none →
      commands.set store args = (store, ser_error (strData ("No key provided")))) := by
  refine ⟨?_, ?_, ?_, ?_⟩
  · intro store args
    cases h1 : commands.get_arg args 1 with
    | none =>
      rw [commands.set, h1]
      dsimp only
      constructor
      · intro h
        exact absurd h (by decide)
      · rintro ⟨hs, _⟩
        exact absurd hs (by decide)
    | some k =>
      cases h2 : commands.get_arg args 2 with
      | none =>
        rw [commands.set, h1]
        dsimp only
        rw [h2]
        dsimp only
        constructor
        · intro h
          exact absurd h (by decide)
        · rintro ⟨_, hs⟩
          exact absurd hs (by decide)
      | some v =>
        rw [commands.set, h1]
        dsimp only
        rw [h2]
        dsimp only
        simp [h1, h2]
  · intro store args k v h1 h2
    constructor
    · rw [commands.set, h1]
      dsimp only
      rw [h2]
    · intro args2 hk
      rw [commands.get, hk]
      dsimp only
      rw [storeGet_storeSet_self]
  · intro store args k h1 h2
    rw [commands.set, h1]
    dsimp only
    rw [h2]
  · intro store args h1
    rw [commands.set, h1]

/-- C6 (witness): SET on a concrete request updates the store, replies
`+OK`, and a following GET sees the new value; the error branches reply as
stated. -/
theorem set_command_spec_witness :
    commands.set []
        [Data.string (strData ("SET")), Data.bulkString (strData ("k")),
          Data.string (strData ("v"))] =
      (storeSet [] (strData ("k")) (strData ("v")), ser_string (strData ("OK"))) ∧
    commands.get (storeSet [] (strData ("k")) (strData ("v")))
        [Data.string (strData ("GET")), Data.string (strData ("k"))] =
      ser_bulk_string (strData ("v")) ∧
    commands.set [] [Data.string (strData ("SET")), Data.string (strData ("k"))] =
      ([], ser_error (strData ("No value provided"))) ∧
    commands.set [] [Data.string (strData ("SET"))] =
      ([], ser_error (strData ("No key provided"))) :=
  ⟨(set_command_spec.2.1 [] _ (strData ("k")) (strData ("v")) (by decide) (by decide)).1,
   (set_command_spec.2.1 [] [Data.string (strData ("SET")), Data.bulkString (strData ("k")),
      Data.string (strData ("v"))] (strData ("k")) (strData ("v")) (by decide) (by decide)).2
     [Data.string (strData ("GET")), Data.string (strData ("k"))] (by decide),
   set_command_spec.2.2.1 [] _ (strData ("k")) (by decide) (by decide),
   set_command_spec.2.2.2 [] _ (by decide)⟩

/-- C7: GET with a string-kind key argument replies BulkString of the
stored value when the key is bound and NullBulkString when it is absent
(the reply is exactly determined by `storeGet`); without a string-kind key
argument it replies Error "No key provided"; and dispatching a GET request
never changes the store. -/
theorem get_command_spec :
    (∀ (store : StoreT) (args : List Data) (k : List Char),
      commands.get_arg args 1 = some k →
      commands.get store args =
        (match storeGet store k with
          | some v => ser_bulk_string v
          | none => ser_null_bulk_string)) ∧
    (∀ (store : StoreT) (args : List Data),
      commands.get_arg args 1 = none →
      commands.get store args = ser (.error (strData ("No key provided")))) ∧
    (∀ (store : StoreT) (arr : List Data),
      commands.get_arg arr 0 = some (strData ("GET")) →
      (execute_commands store arr).1 = store) := by
  refine ⟨?_, ?_, ?_⟩
  · intro store args k h
    rw [commands.get, h]
  · intro store args h
    rw [commands.get, h]
  · intro store arr h
    rw [execute_commands, h]
    unfold run_command
    dsimp only
    rw [if_neg (by decide), if_neg (by decide), if_pos rfl]

/-- C7 (witness): GET on a bound key, on an absent key, and with a missing
key argument, plus store preservation through the dispatcher. -/
theorem get_command_spec_witness :
    commands.get [(strData ("k"), strData ("v"))]
        [Data.string (strData ("GET")), Data.string (strData ("k"))] =
      ser_bulk_string (strData ("v")) ∧
    commands.get [(strData ("k"), strData ("v"))]
        [Data.string (strData ("GET")), Data.string (strData ("x"))] =
      ser_null_bulk_string ∧
    commands.get [(strData ("k"), strData ("v"))]
        [Data.string (strData ("GET")), Data.integer 7] =
      ser (.error (strData ("No key provided"))) ∧
    (execute_commands [(strData ("k"), strData ("v"))]
        [Data.string (strData ("GET")), Data.string (strData ("k"))]).1 =
      [(strData ("k"), strData ("v"))] :=
  ⟨get_command_spec.1 _ _ (strData ("k")) (by decide),
   get_command_spec.1 _ _ (strData ("x")) (by decide),
   get_command_spec.2.1 _ _ (by decide),
   get_command_spec.2.2 _ _ (by decide)⟩

/-- C8: DEL extracts as keys exactly the string-kind elements after the
command name (any other element kind is skipped by the extraction and so
never counted), replies an Integer equal to the number of listed keys
present in the store at the moment they are processed (for distinct keys,
the number of listed keys bound in the original store; absent keys add 0),
and every listed key is unbound afterwards. -/
theorem del_command_spec :
    (∀ (store : StoreT) (args : List Data),
      commands.del store args =
        ((storeDel store (commands.extract_keys (args.drop 1))).1,
          ser_int (storeDel store (commands.extract_keys (args.drop 1))).2)) ∧
    (∀ (d : Data) (rest : List Data), keyOf d = none →
      commands.extract_keys (d :: rest) = commands.extract_keys rest) ∧
    (∀ (store : StoreT) (keys : List (List Char)), keys.Nodup →
      (storeDel store keys).2 =
        ((keys.filter (fun k => storeContains store k)).length : Int)) ∧
    (∀ (store : StoreT) (keys : List (List Char)) (k : List Char),
      (store.map Prod.fst).Nodup → k ∈ keys →
      storeGet (storeDel store keys).1 k = none) := by
  refine ⟨?_, ?_, ?_, ?_⟩
  · intro store args
    rfl
  · intro d rest h
    rw [extract_keys_eq, extract_keys_eq, List.filterMap_cons_none h]
  · intro store keys h
    exact storeDel_count_nodup keys store h
  · intro store keys k hm hk
    exact storeGet_storeDel_mem keys store k hm hk

/-- C8 (witness): DEL a c on the store mapping a to 1 and b to 2 counts
only the present key a (Integer 1), removes it, and skips a non-string
element. -/
theorem del_command_spec_witness :
    commands.del [(strData ("a"), strData ("1")), (strData ("b"), strData ("2"))]
        [Data.string (strData ("DEL")), Data.string (strData ("a")),
          Data.string (strData ("c"))] =
      ((storeDel [(strData ("a"), strData ("1")), (strData ("b"), strData ("2"))]
          (commands.extract_keys [Data.string (strData ("a")),
            Data.string (strData ("c"))])).1,
        ser_int (storeDel [(strData ("a"), strData ("1")), (strData ("b"), strData ("2"))]
          (commands.extract_keys [Data.string (strData ("a")),
            Data.string (strData ("c"))])).2) ∧
    commands.extract_keys [Data.integer 7, Data.string (strData ("a"))] =
      commands.extract_keys [Data.string (strData ("a"))] ∧
    (storeDel [(strData ("a"), strData ("1")), (strData ("b"), strData ("2"))]
        [strData ("a"), strData ("c")]).2 =
      (([strData ("a"), strData ("c")].filter
        (fun k => storeContains [(strData ("a"), strData ("1")),
          (strData ("b"), strData ("2"))] k)).length : Int) ∧
    storeGet (storeDel [(strData ("a"), strData ("1")), (strData ("b"), strData ("2"))]
        [strData ("a"), strData ("c")]).1 (strData ("a")) = none :=
  ⟨del_command_spec.1 _ _,
   del_command_spec.2.1 (Data.integer 7) _ (by decide),
   del_command_spec.2.2.1 _ _ (by decide),
   del_command_spec.2.2.2 _ _ (strData ("a")) (by decide) (by decide)⟩

/-- C9: a request array whose first element is a string-kind command name
other than exactly PING, SET, GET, DEL (match is case-sensitive) is
answered with Error "Unknown command" and leaves the store unchanged;
the connection then remains usable: in a concrete two-chunk run, a
following valid PING is still dispatched and answered. -/
theorem unknown_command_spec :
    (∀ (store : StoreT) (arr : List Data) (cmd : List Char),
      commands.get_arg arr 0 = some cmd →
      cmd ≠ strData ("PING") → cmd ≠ strData ("SET") →
      cmd ≠ strData ("GET") → cmd ≠ strData ("DEL") →
      execute_commands store arr = (store, ser_error (strData ("Unknown command")))) ∧
    runConn [] [bytesOf ("FOO\r\n"), bytesOf ("PING\r\n")] =
      ([], ser_error (strData ("Unknown command")) ++ ser_string (strData ("PONG"))) :=
  ⟨fun _ _ _ h h1 h2 h3 h4 => execute_commands_unknown h h1 h2 h3 h4, rfl⟩

/-- C9 (witness): the unknown command FOO (and the lowercase ping, which
does not match case-sensitively) each get the Error reply with the store
intact. -/
theorem unknown_command_spec_witness :
    execute_commands [(strData ("k"), strData ("v"))] [Data.string (strData ("FOO"))] =
      ([(strData ("k"), strData ("v"))], ser_error (strData ("Unknown command"))) ∧
    execute_commands [] [Data.string (strData ("ping"))] =
      ([], ser_error (strData ("Unknown command"))) :=
  ⟨unknown_command_spec.1 _ _ (strData ("FOO")) (by decide) (by decide) (by decide)
      (by decide) (by decide),
   unknown_command_spec.1 _ _ (strData ("ping")) (by decide) (by decide) (by decide)
      (by decide) (by decide)⟩

/-- C10: `get_arg` yields a value exactly for SimpleString or BulkString
elements (so Integer elements are invisible to the command layer), the
inline tokenizer turns every token that parses as an `i64` into an Integer
element, and consequently the inline request "SET k 5" is answered with
Error "No value provided" instead of storing the numeric text. -/
theorem integer_args_invisible :
    (∀ (args : List Data) (i : Nat) (s : List Char),
      commands.get_arg args i = some s ↔
        (args[i]? = some (.string s) ∨ args[i]? = some (.bulkString s))) ∧
    (∀ (t : List Char) (n : Int), parseI64 t = some n → tokenData t = .integer n) ∧
    runConn [] [bytesOf ("SET k 5\r\n")] =
      ([], ser_error (strData ("No value provided"))) := by
  refine ⟨?_, ?_, rfl⟩
  · intro args i s
    rw [commands.get_arg]
    cases h : args[i]? with
    | none => simp
    | some d => cases d <;> simp
  · intro t n h
    rw [tokenData, h]

/-- C10 (witness): the numeric token 5 parses as an integer and is coerced
to an Integer element by the inline tokenizer. -/
theorem integer_args_invisible_witness :
    parseI64 (strData ("5")) = some 5 ∧
    tokenData (strData ("5")) = Data.integer 5 ∧
    commands.get_arg [Data.string (strData ("SET")), Data.string (strData ("k")),
        Data.integer 5] 2 = none :=
  ⟨by decide, integer_args_invisible.2.1 (strData ("5")) 5 (by decide), by decide⟩

end Rusdis
